import Mathlib

/-!
Verification of the heap-allocator backends of a freestanding x86_64 kernel:
the common address-arithmetic helper (`align_up`), the bump allocator, the
address-ordered linked-list (free-list) allocator, and the segregated
fixed-size-block allocator, together with the locking structure of the
synchronized facade.

Addresses and sizes are modelled as `Nat` with the 64-bit word bound
(`USIZE`) made explicit wherever the source performs checked or wrapping
arithmetic.  The in-place linked list of free regions is modelled as a
`List` of `(start, size)` records in the same order as the physical list;
panics (failed assertions / `expect`) and null returns are explicit
constructors.
-/

set_option linter.unusedVariables false

namespace RustCore

/-- Word bound: `usize` on the x86_64 target has 64 bits. -/
def USIZE : Nat := 2 ^ 64

/-- `mem::size_of::<ListNode>()` for `struct ListNode { size: usize, next: Option<&'static mut ListNode> }`
on x86_64: 8 bytes for `size` plus 8 for the niche-optimised reference. -/
def NODE_SIZE : Nat := 16

/-- `mem::align_of::<ListNode>()` on x86_64. -/
def NODE_ALIGN : Nat := 8

/-- `align_up` from `src/allocator.rs`:
`(addr + align - 1) & !(align - 1)` with wrapping `usize` addition made
explicit by the reduction modulo `USIZE`; `!x` on `usize` is `x ^^^ (USIZE - 1)`. -/
def align_up (addr align : Nat) : Nat :=
  ((addr + align - 1) % USIZE) &&& ((USIZE - 1) ^^^ (align - 1))

/-- The naive remainder-based definition of upward alignment that the source
quotes in a comment as the specification of `align_up`. -/
def align_up_naive (addr align : Nat) : Nat :=
  if addr % align = 0 then addr else addr - addr % align + align

/-- Arithmetical round-up to the next multiple of `align`. -/
def roundUp (addr align : Nat) : Nat :=
  (addr + align - 1) / align * align

/-- `usize::checked_add`. -/
def checked_add (a b : Nat) : Option Nat :=
  if a + b < USIZE then some (a + b) else none

/-! Arithmetic facts about `align_up` and `roundUp`. -/

theorem and_high_mask (x k : Nat) (hk : k ≤ 64) (hx : x < USIZE) :
    x &&& ((USIZE - 1) ^^^ (2 ^ k - 1)) = x / 2 ^ k * 2 ^ k := by
  apply Nat.eq_of_testBit_eq
  intro i
  rw [Nat.mul_comm, Nat.testBit_and, Nat.testBit_xor]
  rw [show USIZE - 1 = 2 ^ 64 - 1 from rfl]
  rw [Nat.testBit_two_pow_sub_one, Nat.testBit_two_pow_sub_one, Nat.testBit_mul_pow_two]
  by_cases hik : k ≤ i
  · by_cases hi64 : i < 64
    · have hdiv : (x / 2 ^ k).testBit (i - k) = x.testBit i := by
        rw [Nat.testBit_to_div_mod, Nat.testBit_to_div_mod, Nat.div_div_eq_div_mul,
          ← Nat.pow_add]
        have : k + (i - k) = i := by omega
        rw [this]
      simp [hik, hi64, hdiv, Nat.not_lt.mpr hik, Bool.and_comm]
    · have hxi : x.testBit i = false := by
        apply Nat.testBit_lt_two_pow
        exact lt_of_lt_of_le hx (Nat.pow_le_pow_right (by norm_num) (by omega))
      have hxd : (x / 2 ^ k).testBit (i - k) = false := by
        apply Nat.testBit_lt_two_pow
        have h1 : x / 2 ^ k < 2 ^ (64 - k) := by
          apply Nat.div_lt_of_lt_mul
          calc x < 2 ^ 64 := hx
          _ = 2 ^ (64 - k) * 2 ^ k := by rw [← Nat.pow_add]; congr 1; omega
          _ = 2 ^ k * 2 ^ (64 - k) := by ring
        exact lt_of_lt_of_le h1 (Nat.pow_le_pow_right (by norm_num) (by omega))
      simp [hxi, hxd]
  · have hik' : i < k := by omega
    have hi64 : i < 64 := by omega
    simp [hik, hik', hi64]

theorem align_up_eq_roundUp (addr k : Nat) (hk : k ≤ 63)
    (hov : addr + 2 ^ k ≤ USIZE) :
    align_up addr (2 ^ k) = roundUp addr (2 ^ k) := by
  have hpos : 0 < 2 ^ k := Nat.two_pow_pos k
  have h2 : addr + 2 ^ k - 1 < USIZE := by omega
  unfold align_up roundUp
  rw [Nat.mod_eq_of_lt h2]
  exact and_high_mask _ k (by omega) h2

theorem roundUp_ge (addr align : Nat) (h : 0 < align) :
    addr ≤ roundUp addr align := by
  have h1 := Nat.div_add_mod (addr + align - 1) align
  have h2 : (addr + align - 1) % align < align := Nat.mod_lt _ h
  unfold roundUp
  rw [Nat.mul_comm]
  omega

theorem roundUp_lt (addr align : Nat) (h : 0 < align) :
    roundUp addr align < addr + align := by
  have h1 := Nat.div_add_mod (addr + align - 1) align
  have h2 : (addr + align - 1) % align < align := Nat.mod_lt _ h
  unfold roundUp
  rw [Nat.mul_comm]
  omega

theorem dvd_roundUp (addr align : Nat) : align ∣ roundUp addr align :=
  Dvd.intro_left _ rfl

theorem roundUp_eq_naive (addr align : Nat) (h : 0 < align) :
    roundUp addr align = align_up_naive addr align := by
  unfold roundUp align_up_naive
  by_cases hm : addr % align = 0
  · rw [if_pos hm]
    obtain ⟨q, hq⟩ := Nat.dvd_of_mod_eq_zero hm
    subst hq
    have he : align * q + align - 1 = align * q + (align - 1) := by omega
    rw [he, Nat.mul_add_div h, Nat.div_eq_of_lt (by omega), Nat.add_zero, Nat.mul_comm]
  · rw [if_neg hm]
    have h2 : addr % align < align := Nat.mod_lt _ h
    obtain ⟨q, r, hqr, hr, hrne⟩ : ∃ q r, addr = align * q + r ∧ r < align ∧ r ≠ 0 :=
      ⟨addr / align, addr % align, (Nat.div_add_mod addr align).symm, h2, hm⟩
    subst hqr
    rw [Nat.mul_add_mod, Nat.mod_eq_of_lt hr]
    have hnum : align * q + r + align - 1 = align * (q + 1) + (r - 1) := by
      rw [Nat.mul_add, Nat.mul_one]
      omega
    rw [hnum, Nat.mul_add_div h, Nat.div_eq_of_lt (by omega), Nat.add_zero,
      Nat.add_mul, Nat.one_mul, Nat.mul_comm]
    omega

theorem roundUp_eq_self (addr align : Nat) (h : 0 < align) (hd : align ∣ addr) :
    roundUp addr align = addr := by
  rw [roundUp_eq_naive addr align h, align_up_naive,
    if_pos (Nat.mod_eq_zero_of_dvd hd)]

theorem dvd_of_roundUp_eq_self (addr align : Nat) (h : 0 < align)
    (he : roundUp addr align = addr) : align ∣ addr := by
  rw [← he]
  exact dvd_roundUp addr align

/-- Multiples of a power of two dividing `USIZE` stay clear of the top. -/
theorem add_align_le_usize {m k : Nat} (hk : k ≤ 63) (hd : 2 ^ k ∣ m)
    (hm : m < USIZE) : m + 2 ^ k ≤ USIZE := by
  have hdU : (2 : Nat) ^ k ∣ USIZE := by
    refine ⟨2 ^ (64 - k), ?_⟩
    show (2 : Nat) ^ 64 = 2 ^ k * 2 ^ (64 - k)
    rw [← Nat.pow_add]
    have hke : k + (64 - k) = 64 := by omega
    rw [hke]
  have hsub : (2 : Nat) ^ k ∣ (USIZE - m) := Nat.dvd_sub' hdU hd
  have hpos : 0 < USIZE - m := by omega
  have := Nat.le_of_dvd hpos hsub
  omega

/-- Convenient specialisation: `align_up` at node alignment fixes its argument
exactly on 8-divisible addresses. -/
theorem align_up_eight (addr : Nat) (hov : addr + 8 ≤ USIZE) :
    align_up addr 8 = addr ↔ 8 ∣ addr := by
  have h8 : (8 : Nat) = 2 ^ 3 := by norm_num
  rw [h8] at hov ⊢
  rw [align_up_eq_roundUp addr 3 (by omega) hov]
  constructor
  · intro he
    exact dvd_of_roundUp_eq_self addr (2 ^ 3) (by norm_num) he
  · intro hd
    exact roundUp_eq_self addr (2 ^ 3) (by norm_num) hd

/-- C10: for every address and every power-of-two alignment for which the
smallest multiple of the alignment at or above the address fits in `usize`,
the bitwise implementation `(addr + align - 1) & !(align - 1)` equals the
naive remainder-based definition (`addr` when `addr` is a multiple of
`align`, otherwise `addr - addr % align + align`). -/
theorem align_up_bitwise_eq_naive (addr k : Nat) (hk : k ≤ 63)
    (haddr : addr < USIZE) (hov : align_up_naive addr (2 ^ k) < USIZE) :
    align_up addr (2 ^ k) = align_up_naive addr (2 ^ k) := by
  have hpos : 0 < (2 : Nat) ^ k := Nat.two_pow_pos k
  have hle : addr + 2 ^ k ≤ USIZE := by
    by_cases hm : addr % 2 ^ k = 0
    · have hd : (2 : Nat) ^ k ∣ addr := Nat.dvd_of_mod_eq_zero hm
      exact add_align_le_usize hk hd haddr
    · have hnaive : align_up_naive addr (2 ^ k) = addr - addr % 2 ^ k + 2 ^ k := by
        rw [align_up_naive, if_neg hm]
      have hd : (2 : Nat) ^ k ∣ (addr - addr % 2 ^ k + 2 ^ k) := by
        refine Nat.dvd_add ?_ dvd_rfl
        have h1 := Nat.div_add_mod addr (2 ^ k)
        have h2 : addr - addr % 2 ^ k = 2 ^ k * (addr / 2 ^ k) := by omega
        exact h2 ▸ Dvd.intro _ rfl
      have := add_align_le_usize hk hd (hnaive ▸ hov)
      have h2 : addr % 2 ^ k < 2 ^ k := Nat.mod_lt _ hpos
      omega
  rw [align_up_eq_roundUp addr k hk hle]
  exact roundUp_eq_naive addr (2 ^ k) hpos

/-- Closed instance of the `align_up` equivalence at a concrete input. -/
theorem align_up_bitwise_eq_naive_witness :
    (13 : Nat) < USIZE ∧ align_up_naive 13 (2 ^ 3) < USIZE ∧
      align_up 13 (2 ^ 3) = align_up_naive 13 (2 ^ 3) :=
  ⟨by decide, by decide, align_up_bitwise_eq_naive 13 3 (by decide) (by decide) (by decide)⟩

/-! The linked-list allocator (`src/allocator/linked_list.rs`).

The physical free list (nodes stored inside the free memory, rooted at a
zero-size sentinel head) is modelled as a `List Region` in the same order as
the pointer chain; a node's own address is the region's start address. -/

/-- A free region: `ListNode` address plus its `size` field. -/
structure Region where
  start : Nat
  size : Nat
deriving DecidableEq

/-- `ListNode::end_addr`: `start_addr + size`. -/
def Region.stop (r : Region) : Nat := r.start + r.size

/-- The splicing loop of `add_free_region`: the new node is linked in
immediately before the first existing node whose start address is at or above
`addr` (`next.start_addr() >= addr`), at the tail if there is none. -/
def insertRegion (l : List Region) (addr size : Nat) : List Region :=
  match l with
  | [] => [⟨addr, size⟩]
  | r :: rs =>
    if addr ≤ r.start then ⟨addr, size⟩ :: r :: rs
    else r :: insertRegion rs addr size

/-- `add_free_region(addr, size)`: the two entry assertions (alignment of
`addr` to the node alignment, `size` at least the node size), then the ordered
splice.  `none` models an assertion failure (panic). -/
def add_free_region (l : List Region) (addr size : Nat) : Option (List Region) :=
  if align_up addr NODE_ALIGN = addr ∧ NODE_SIZE ≤ size then
    some (insertRegion l addr size)
  else
    none

/-- `merge_region()`: one left-to-right pass.  At each node, if its end
address equals its successor's start address the successor is absorbed
(`node.size = next.end_addr() - start_addr`) and unlinked; the cursor then
advances (`current = current.next`), so after a merge the next node examined
is the one following the absorbed successor. -/
def merge_region : List Region → List Region
  | [] => []
  | [r] => [r]
  | r :: s :: rest =>
    if r.stop = s.start then
      ⟨r.start, s.start + s.size - r.start⟩ :: merge_region rest
    else
      r :: merge_region (s :: rest)

/-- `alloc_from_region(region, size, align)`: align the region start up to
`align`, overflow-checked add of `size`, bounds check against the region end,
then the sliver check on the leftover tail. -/
def alloc_from_region (r : Region) (size align : Nat) : Option Nat :=
  let alloc_start := align_up r.start align
  match checked_add alloc_start size with
  | none => none
  | some alloc_end =>
    if r.stop < alloc_end then
      none
    else
      let excess_size := r.stop - alloc_end
      if 0 < excess_size ∧ excess_size < NODE_SIZE then
        none
      else
        some alloc_start

/-- `find_region(size, align)`: first-fit scan in list order; the first region
for which `alloc_from_region` succeeds is unlinked and returned together with
the allocation start and the remaining list. -/
def find_region : List Region → Nat → Nat → Option (Region × Nat × List Region)
  | [], _, _ => none
  | r :: rs, size, align =>
    match alloc_from_region r size align with
    | some alloc_start => some (r, alloc_start, rs)
    | none =>
      match find_region rs size align with
      | some (reg, alloc_start, rest) => some (reg, alloc_start, r :: rest)
      | none => none

/-- `LinkedListAllocator::size_align(layout)`:
`layout.align_to(align_of::<ListNode>()).pad_to_align()`, then the size is
raised to at least `size_of::<ListNode>()`.  `align_to` takes the maximum of
the two alignments; `pad_to_align` rounds the size up to the new alignment
(Rust computes this with the same bitwise round-up as `align_up`). -/
def size_align (size align : Nat) : Nat × Nat :=
  let a := max align NODE_ALIGN
  let padded := align_up size a
  (max padded NODE_SIZE, a)

/-- Result of a facade `alloc` call: a returned pointer with the new free
list, a null return (out of memory), or a panic (failed `expect`/assertion). -/
inductive AllocResult
  | ptr (addr : Nat) (free : List Region)
  | null
  | panic
deriving DecidableEq

/-- `GlobalAlloc::alloc` for `Locked<LinkedListAllocator>`: adjust the layout
with `size_align`, search with `find_region`, then re-insert the excess tail
of the chosen region (`region.end_addr() - alloc_end`) if it is nonempty.
Bytes between the region start and the aligned allocation start are not
re-inserted. -/
def ll_alloc (l : List Region) (lsize lalign : Nat) : AllocResult :=
  let sa := size_align lsize lalign
  match find_region l sa.1 sa.2 with
  | none => .null
  | some (region, alloc_start, rest) =>
    match checked_add alloc_start sa.1 with
    | none => .panic
    | some alloc_end =>
      let excess_size := region.stop - alloc_end
      if 0 < excess_size then
        match add_free_region rest alloc_end excess_size with
        | some l2 => .ptr alloc_start l2
        | none => .panic
      else
        .ptr alloc_start rest

/-- `GlobalAlloc::dealloc` for `Locked<LinkedListAllocator>`: re-derive the
padded size, insert the freed span with `add_free_region`, then run
`merge_region`.  `none` models the assertion panic inside `add_free_region`. -/
def ll_dealloc (l : List Region) (ptr lsize lalign : Nat) : Option (List Region) :=
  match add_free_region l ptr (size_align lsize lalign).1 with
  | none => none
  | some l2 => some (merge_region l2)

/-- `LinkedListAllocator::init`: registers the whole arena as one region. -/
def ll_init (heap_start heap_size : Nat) : Option (List Region) :=
  add_free_region [] heap_start heap_size

/-! The bump allocator (`src/allocator/bump_allocator.rs`). -/

/-- The `BumpAllocator` state. -/
structure BumpAllocator where
  heap_start : Nat
  heap_end : Nat
  next : Nat
  allocations : Nat
deriving DecidableEq

/-- `BumpAllocator::init`. -/
def bump_init (heap_start heap_size : Nat) : BumpAllocator :=
  ⟨heap_start, heap_start + heap_size, heap_start, 0⟩

/-- `GlobalAlloc::alloc` for `Locked<BumpAllocator>`: round the cursor up to
the requested alignment, overflow-checked add of the requested size, bounds
check against `heap_end`; on success advance the cursor and bump the live
count.  `none` is the null (out-of-memory) return. -/
def bump_alloc (b : BumpAllocator) (lsize lalign : Nat) :
    Option (Nat × BumpAllocator) :=
  let alloc_start := align_up b.next lalign
  match checked_add alloc_start lsize with
  | none => none
  | some alloc_end =>
    if b.heap_end < alloc_end then
      none
    else
      some (alloc_start, ⟨b.heap_start, b.heap_end, alloc_end, b.allocations + 1⟩)

/-- `GlobalAlloc::dealloc` for `Locked<BumpAllocator>`: decrement the live
count; if the freed span's end equals the cursor, retract the cursor to the
span's start; if the live count reached zero, reset the cursor to
`heap_start`.  The decrement uses truncated subtraction; the source would
panic on underflow, which matched deallocations never trigger. -/
def bump_dealloc (b : BumpAllocator) (ptr lsize : Nat) : BumpAllocator :=
  let b1 : BumpAllocator := ⟨b.heap_start, b.heap_end, b.next, b.allocations - 1⟩
  let b2 : BumpAllocator :=
    if ptr + lsize = b1.next then
      ⟨b1.heap_start, b1.heap_end, ptr, b1.allocations⟩
    else b1
  if b2.allocations = 0 then
    ⟨b2.heap_start, b2.heap_end, b2.heap_start, b2.allocations⟩
  else b2

/-! Order and separation predicates for lists of regions. -/

/-- `a` lies entirely below `b`. -/
def Before (a b : Region) : Prop := a.stop ≤ b.start

/-- `a` and `b` occupy disjoint address ranges. -/
def Disj (a b : Region) : Prop := a.stop ≤ b.start ∨ b.stop ≤ a.start

instance (a b : Region) : Decidable (Before a b) := by unfold Before; infer_instance

instance (a b : Region) : Decidable (Disj a b) := by unfold Disj; infer_instance

theorem disj_symm {a b : Region} (h : Disj a b) : Disj b a := by
  unfold Disj at *
  omega

theorem disj_subspan {a b x : Region} (hd : Disj a b)
    (hx1 : a.start ≤ x.start) (hx2 : x.stop ≤ a.stop) : Disj x b := by
  unfold Disj Region.stop at *
  omega

/-- Total size of a list of regions. -/
def sumSize (l : List Region) : Nat := (l.map Region.size).sum

theorem sumSize_perm {l l' : List Region} (h : l.Perm l') : sumSize l = sumSize l' :=
  (h.map Region.size).sum_eq

theorem sumSize_cons (r : Region) (l : List Region) :
    sumSize (r :: l) = r.size + sumSize l := by
  simp [sumSize]

/-! Facts about `insertRegion`. -/

theorem insertRegion_perm (l : List Region) (a n : Nat) :
    (insertRegion l a n).Perm (⟨a, n⟩ :: l) := by
  induction l with
  | nil => simp [insertRegion]
  | cons r rs ih =>
    unfold insertRegion
    by_cases h : a ≤ r.start
    · rw [if_pos h]
    · rw [if_neg h]
      exact (ih.cons r).trans (List.Perm.swap _ _ _)

theorem insertRegion_mem {l : List Region} {a n : Nat} {x : Region}
    (h : x ∈ insertRegion l a n) : x = ⟨a, n⟩ ∨ x ∈ l :=
  List.mem_cons.mp ((insertRegion_perm l a n).mem_iff.mp h)

theorem insertRegion_pairwise {l : List Region} {a n : Nat}
    (hl : List.Pairwise Before l) (hsz : ∀ r ∈ l, 0 < r.size)
    (hdisj : ∀ r ∈ l, Disj ⟨a, n⟩ r) (hn : 0 < n) :
    List.Pairwise Before (insertRegion l a n) := by
  induction l with
  | nil => simp [insertRegion]
  | cons r rs ih =>
    have hrsz : 0 < r.size := hsz r (by simp)
    have hrd : Disj ⟨a, n⟩ r := hdisj r (by simp)
    unfold insertRegion
    by_cases h : a ≤ r.start
    · rw [if_pos h]
      refine List.Pairwise.cons ?_ hl
      intro x hx
      rcases List.mem_cons.mp hx with hx | hx
      · subst hx
        rcases hrd with hd | hd
        · exact hd
        · exfalso
          simp only [Region.stop] at hd
          omega
      · have hrx : Before r x := List.rel_of_pairwise_cons hl hx
        have hxd : Disj ⟨a, n⟩ x := hdisj x (by simp [hx])
        rcases hxd with hd | hd
        · exact hd
        · exfalso
          have hxsz : 0 < x.size := hsz x (by simp [hx])
          simp only [Before, Region.stop] at hrx hd
          omega
    · rw [if_neg h]
      refine List.Pairwise.cons ?_ ?_
      · intro y hy
        rcases insertRegion_mem hy with hy | hy
        · subst hy
          rcases hrd with hd | hd
          · exfalso
            simp only [Region.stop] at hd
            omega
          · exact hd
        · exact List.rel_of_pairwise_cons hl hy
      · exact ih hl.of_cons (fun x hx => hsz x (by simp [hx]))
          (fun x hx => hdisj x (by simp [hx]))

/-! Facts about `merge_region`. -/

theorem merge_region_sum (l : List Region) : sumSize (merge_region l) = sumSize l := by
  match l with
  | [] => rfl
  | [r] => rfl
  | r :: s :: rest =>
    unfold merge_region
    by_cases h : r.stop = s.start
    · rw [if_pos h]
      have ih := merge_region_sum rest
      unfold Region.stop at h
      simp only [sumSize_cons, ih]
      omega
    · rw [if_neg h]
      have ih := merge_region_sum (s :: rest)
      simp only [sumSize_cons, ih]

theorem merge_region_pres (P : Region → Prop)
    (hP : ∀ r s : Region, P r → P s → r.stop = s.start →
      P ⟨r.start, s.start + s.size - r.start⟩) :
    ∀ l : List Region, (∀ x ∈ l, P x) → ∀ x ∈ merge_region l, P x := by
  intro l
  match l with
  | [] => intro h x hx; simp [merge_region] at hx
  | [r] =>
    intro h x hx
    simp only [merge_region, List.mem_singleton] at hx
    subst hx
    exact h x (by simp)
  | r :: s :: rest =>
    intro h x hx
    unfold merge_region at hx
    by_cases hc : r.stop = s.start
    · rw [if_pos hc] at hx
      rcases List.mem_cons.mp hx with hx | hx
      · subst hx
        exact hP r s (h r (by simp)) (h s (by simp)) hc
      · exact merge_region_pres P hP rest (fun y hy => h y (by simp [hy])) x hx
    · rw [if_neg hc] at hx
      rcases List.mem_cons.mp hx with hx | hx
      · subst hx
        exact h x (by simp)
      · exact merge_region_pres P hP (s :: rest)
          (fun y hy => h y (by simp [List.mem_cons] at hy ⊢; tauto)) x hx

theorem merge_region_pairwise {l : List Region}
    (hl : List.Pairwise Before l) : List.Pairwise Before (merge_region l) := by
  match l with
  | [] => exact hl
  | [r] => exact hl
  | r :: s :: rest =>
    unfold merge_region
    by_cases hc : r.stop = s.start
    · rw [if_pos hc]
      have hsrest : List.Pairwise Before (s :: rest) := hl.of_cons
      refine List.Pairwise.cons ?_ (merge_region_pairwise hsrest.of_cons)
      intro y hy
      have hy' : s.stop ≤ y.start := by
        refine merge_region_pres (fun x => s.stop ≤ x.start) ?_ rest ?_ y hy
        · intro u v hu hv huv
          exact hu
        · intro x hx
          exact List.rel_of_pairwise_cons hsrest hx
      show Region.stop ⟨r.start, s.start + s.size - r.start⟩ ≤ y.start
      unfold Region.stop at *
      dsimp only
      omega
    · rw [if_neg hc]
      refine List.Pairwise.cons ?_ (merge_region_pairwise hl.of_cons)
      intro y hy
      refine merge_region_pres (fun x => r.stop ≤ x.start) ?_ (s :: rest) ?_ y hy
      · intro u v hu hv huv
        exact hu
      · intro x hx
        exact List.rel_of_pairwise_cons hl hx

theorem merge_region_disj {l : List Region} {b : Region} (hb : 0 < b.size)
    (h : ∀ x ∈ l, Disj x b) : ∀ x ∈ merge_region l, Disj x b := by
  refine merge_region_pres (fun x => Disj x b) ?_ l h
  intro u v hu hv huv
  unfold Disj Region.stop at *
  dsimp only
  omega

/-! Facts about `find_region` and `alloc_from_region`. -/

theorem alloc_from_region_some {r : Region} {sz al p : Nat}
    (h : alloc_from_region r sz al = some p) :
    p = align_up r.start al ∧ p + sz < USIZE ∧ p + sz ≤ r.stop ∧
      (r.stop - (p + sz) = 0 ∨ NODE_SIZE ≤ r.stop - (p + sz)) := by
  unfold alloc_from_region checked_add at h
  dsimp only at h
  split at h
  · exact absurd h (by simp)
  · rename_i alloc_end heq
    have he : alloc_end = align_up r.start al + sz ∧ align_up r.start al + sz < USIZE := by
      by_cases h1 : align_up r.start al + sz < USIZE
      · rw [if_pos h1] at heq
        cases heq
        exact ⟨rfl, h1⟩
      · rw [if_neg h1] at heq
        cases heq
    obtain ⟨he1, he2⟩ := he
    subst he1
    split at h
    · exact absurd h (by simp)
    · rename_i h2
      split at h
      · exact absurd h (by simp)
      · rename_i h3
        cases h
        refine ⟨rfl, he2, by omega, ?_⟩
        unfold NODE_SIZE at *
        omega

theorem find_region_some {l : List Region} {sz al : Nat} {r : Region} {p : Nat}
    {rest : List Region}
    (h : find_region l sz al = some (r, p, rest)) :
    ∃ l1 l2, l = l1 ++ r :: l2 ∧ rest = l1 ++ l2 ∧
      alloc_from_region r sz al = some p := by
  induction l generalizing rest with
  | nil => exact absurd h (by simp [find_region])
  | cons x xs ih =>
    unfold find_region at h
    cases hx : alloc_from_region x sz al with
    | some q =>
      rw [hx] at h
      simp only [Option.some.injEq, Prod.mk.injEq] at h
      obtain ⟨h1, h2, h3⟩ := h
      subst h1
      subst h2
      subst h3
      exact ⟨[], xs, rfl, rfl, hx⟩
    | none =>
      rw [hx] at h
      cases hrec : find_region xs sz al with
      | some t =>
        obtain ⟨reg, q, rest2⟩ := t
        rw [hrec] at h
        simp only [Option.some.injEq, Prod.mk.injEq] at h
        obtain ⟨h1, h2, h3⟩ := h
        subst h1
        subst h2
        obtain ⟨l1, l2, he1, he2, he3⟩ := ih hrec
        subst he1
        subst he2
        exact ⟨x :: l1, l2, rfl, by simp [h3.symm], he3⟩
      | none =>
        rw [hrec] at h
        exact absurd h (by simp)

theorem find_region_none {l : List Region} {sz al : Nat}
    (h : ∀ r ∈ l, alloc_from_region r sz al = none) :
    find_region l sz al = none := by
  induction l with
  | nil => rfl
  | cons x xs ih =>
    unfold find_region
    rw [h x (by simp), ih (fun r hr => h r (by simp [hr]))]

/-! Reachable allocator states.

A facade-level request is a `Layout` (size, align).  Rust's `Layout`
guarantees the alignment is a power of two and the size stays within
`isize`; `LayoutValid` records those guarantees (bounded at `2 ^ 62` so that
all padded quantities stay below `2 ^ 63`). -/

/-- A `Layout` as passed to `allocate` / `deallocate`. -/
structure Request where
  lsize : Nat
  lalign : Nat
deriving DecidableEq

/-- The `Layout` well-formedness contract assumed of every request. -/
def LayoutValid (q : Request) : Prop :=
  (∃ k, k ≤ 62 ∧ q.lalign = 2 ^ k) ∧ q.lsize ≤ 2 ^ 62

/-- The padded size that `size_align` derives for a request. -/
def padded_size (q : Request) : Nat := (size_align q.lsize q.lalign).1

/-- The padded alignment that `size_align` derives for a request. -/
def padded_align (q : Request) : Nat := (size_align q.lsize q.lalign).2

/-- The span of arena bytes handed to the caller of a successful allocation:
the returned pointer plus the padded size. -/
def padded_span (e : Nat × Request) : Region := ⟨e.1, padded_size e.2⟩

/-- Free-list allocator state together with the bookkeeping needed to state
invariants: the outstanding (live) allocations and the bytes dropped as
front padding by past allocations. -/
structure LLState where
  free : List Region
  live : List (Nat × Request)
  leaked : Nat
deriving DecidableEq

/-- All spans the allocator accounts for: free regions plus live spans. -/
def spans (s : LLState) : List Region := s.free ++ s.live.map padded_span

/-- Front-padding bytes dropped by one `alloc` call: the gap between the
chosen region's start and the aligned allocation start (zero on failure). -/
def ll_alloc_leak (l : List Region) (lsize lalign : Nat) : Nat :=
  match find_region l (size_align lsize lalign).1 (size_align lsize lalign).2 with
  | some (region, alloc_start, _) => alloc_start - region.start
  | none => 0

/-- Free-list states reachable from `init` by facade calls with well-formed
layouts, every `dealloc` matching an outstanding `alloc`. -/
inductive LLReach (A N : Nat) : LLState → Prop
  | init (l : List Region) (h : ll_init A N = some l) : LLReach A N ⟨l, [], 0⟩
  | alloc (s : LLState) (q : Request) (p : Nat) (l2 : List Region)
      (hs : LLReach A N s) (hq : LayoutValid q)
      (h : ll_alloc s.free q.lsize q.lalign = .ptr p l2) :
      LLReach A N ⟨l2, (p, q) :: s.live, s.leaked + ll_alloc_leak s.free q.lsize q.lalign⟩
  | dealloc (s : LLState) (p : Nat) (q : Request) (l2 : List Region)
      (pre post : List (Nat × Request))
      (hs : LLReach A N s) (hm : s.live = pre ++ (p, q) :: post)
      (h : ll_dealloc s.free p q.lsize q.lalign = some l2) :
      LLReach A N ⟨l2, pre ++ post, s.leaked⟩

/-- The free-list invariant: the free list is address-ordered and separated,
every node satisfies the assertion contract of `add_free_region` and stays
inside the arena, live spans are well-formed and inside the arena, all spans
are mutually disjoint, and the byte budget balances up to the leak counter. -/
structure Inv (A N : Nat) (s : LLState) : Prop where
  freeOrder : List.Pairwise Before s.free
  freeOK : ∀ r ∈ s.free, NODE_SIZE ≤ r.size ∧ 8 ∣ r.start ∧ A ≤ r.start ∧ r.stop ≤ A + N
  liveOK : ∀ e ∈ s.live, LayoutValid e.2 ∧ 8 ∣ e.1 ∧ A ≤ e.1 ∧ e.1 + padded_size e.2 ≤ A + N
  sep : List.Pairwise Disj (spans s)
  conserve : sumSize (spans s) + s.leaked = N

theorem padded_size_node (q : Request) : NODE_SIZE ≤ padded_size q := by
  unfold padded_size size_align NODE_SIZE
  simp

theorem padded_size_pos (q : Request) : 0 < padded_size q :=
  lt_of_lt_of_le (by norm_num [NODE_SIZE]) (padded_size_node q)

/-- Derived data of `size_align` under the layout contract. -/
theorem size_align_spec (q : Request) (h : LayoutValid q) :
    ∃ k, 3 ≤ k ∧ k ≤ 62 ∧ padded_align q = 2 ^ k ∧
      8 ∣ padded_size q ∧ q.lsize ≤ padded_size q ∧ padded_size q ≤ 2 ^ 63 := by
  obtain ⟨⟨j, hj, hja⟩, hsz⟩ := h
  have hmax : max j 3 ≤ 62 := by omega
  have hpow : (2 : Nat) ^ j ⊔ 8 = 2 ^ max j 3 := by
    rcases Nat.le_total j 3 with hj3 | hj3
    · rw [Nat.max_eq_right hj3]
      have h8 : (2 : Nat) ^ j ≤ 8 := by
        calc (2 : Nat) ^ j ≤ 2 ^ 3 := Nat.pow_le_pow_right (by norm_num) hj3
        _ = 8 := by norm_num
      rw [Nat.max_eq_right h8]
      norm_num
    · rw [Nat.max_eq_left hj3]
      have h8 : (8 : Nat) ≤ 2 ^ j := by
        calc (8 : Nat) = 2 ^ 3 := by norm_num
        _ ≤ 2 ^ j := Nat.pow_le_pow_right (by norm_num) hj3
      rw [Nat.max_eq_left h8]
  have hk2 : (2 : Nat) ^ max j 3 ≤ 2 ^ 62 := Nat.pow_le_pow_right (by norm_num) hmax
  have hknz : (0 : Nat) < 2 ^ max j 3 := Nat.two_pow_pos _
  have hru : align_up q.lsize (2 ^ max j 3) = roundUp q.lsize (2 ^ max j 3) := by
    refine align_up_eq_roundUp _ _ (by omega) ?_
    unfold USIZE
    have h64 : (2 : Nat) ^ 62 ≤ 2 ^ 64 := Nat.pow_le_pow_right (by norm_num) (by norm_num)
    omega
  have hsize : padded_size q = max (roundUp q.lsize (2 ^ max j 3)) NODE_SIZE := by
    unfold padded_size size_align
    simp only [hja, NODE_ALIGN]
    rw [hpow, hru]
  refine ⟨max j 3, by omega, hmax, ?_, ?_, ?_, ?_⟩
  · unfold padded_align size_align
    simp only [hja, NODE_ALIGN]
    exact hpow
  · rw [hsize]
    have hd : (2 : Nat) ^ max j 3 ∣ roundUp q.lsize (2 ^ max j 3) :=
      dvd_roundUp _ _
    have h8 : (8 : Nat) ∣ roundUp q.lsize (2 ^ max j 3) := by
      refine dvd_trans ?_ hd
      have h83 : (8 : Nat) = 2 ^ 3 := by norm_num
      rw [h83]
      exact pow_dvd_pow 2 (by omega)
    rcases Nat.le_total (roundUp q.lsize (2 ^ max j 3)) NODE_SIZE with hm | hm
    · rw [Nat.max_eq_right hm]
      decide
    · rw [Nat.max_eq_left hm]
      exact h8
  · rw [hsize]
    have hge := roundUp_ge q.lsize (2 ^ max j 3) hknz
    exact le_trans hge (le_max_left _ _)
  · rw [hsize]
    have h1 := roundUp_lt q.lsize (2 ^ max j 3) hknz
    have h2 : (2 : Nat) ^ 62 + 2 ^ 62 = 2 ^ 63 := by norm_num
    have h3 : roundUp q.lsize (2 ^ max j 3) ≤ 2 ^ 63 := by omega
    simp only [NODE_SIZE]
    omega

theorem sumSize_append (a b : List Region) :
    sumSize (a ++ b) = sumSize a + sumSize b := by
  simp [sumSize]

theorem pairwise_middle_disj {l1 l3 : List Region} {r : Region}
    (h : List.Pairwise Before (l1 ++ r :: l3)) : ∀ x ∈ l1 ++ l3, Disj r x := by
  rw [List.pairwise_append] at h
  obtain ⟨h1, h2, h3⟩ := h
  intro x hx
  rcases List.mem_append.mp hx with hx | hx
  · exact Or.inr (h3 x hx r (by simp))
  · exact Or.inl (List.rel_of_pairwise_cons h2 hx)

theorem pairwise_disj_parts {r : Region} {rest : List Region} {parts : List Region}
    (h : List.Pairwise Disj (r :: rest))
    (hsub : ∀ x ∈ parts, r.start ≤ x.start ∧ x.stop ≤ r.stop)
    (hparts : List.Pairwise Disj parts) :
    List.Pairwise Disj (parts ++ rest) := by
  rw [List.pairwise_append]
  refine ⟨hparts, h.of_cons, ?_⟩
  intro x hx y hy
  obtain ⟨h1, h2⟩ := hsub x hx
  exact disj_subspan (List.rel_of_pairwise_cons h hy) h1 h2

theorem add_free_region_some {l : List Region} {a n : Nat} {l' : List Region}
    (h : add_free_region l a n = some l') :
    align_up a NODE_ALIGN = a ∧ NODE_SIZE ≤ n ∧ l' = insertRegion l a n := by
  unfold add_free_region at h
  by_cases hc : align_up a NODE_ALIGN = a ∧ NODE_SIZE ≤ n
  · rw [if_pos hc] at h
    cases h
    exact ⟨hc.1, hc.2, rfl⟩
  · rw [if_neg hc] at h
    cases h

theorem ll_dealloc_some {l : List Region} {ptr ls la : Nat} {l2 : List Region}
    (h : ll_dealloc l ptr ls la = some l2) :
    align_up ptr NODE_ALIGN = ptr ∧ NODE_SIZE ≤ (size_align ls la).1 ∧
      l2 = merge_region (insertRegion l ptr (size_align ls la).1) := by
  unfold ll_dealloc at h
  split at h
  · cases h
  · rename_i m heq
    obtain ⟨h1, h2, h3⟩ := add_free_region_some heq
    cases h
    exact ⟨h1, h2, by rw [h3]⟩

theorem ll_alloc_ptr {l : List Region} {ls la p : Nat} {l2 : List Region}
    (h : ll_alloc l ls la = .ptr p l2) :
    ∃ r l1 l3,
      find_region l (size_align ls la).1 (size_align ls la).2 =
        some (r, p, l1 ++ l3) ∧
      l = l1 ++ r :: l3 ∧
      alloc_from_region r (size_align ls la).1 (size_align ls la).2 = some p ∧
      ((r.stop = p + (size_align ls la).1 ∧ l2 = l1 ++ l3) ∨
        (p + (size_align ls la).1 < r.stop ∧
          align_up (p + (size_align ls la).1) NODE_ALIGN = p + (size_align ls la).1 ∧
          NODE_SIZE ≤ r.stop - (p + (size_align ls la).1) ∧
          l2 = insertRegion (l1 ++ l3) (p + (size_align ls la).1)
            (r.stop - (p + (size_align ls la).1)))) := by
  unfold ll_alloc at h
  dsimp only at h
  split at h
  · cases h
  · rename_i tup region alloc_start rest hfind
    have hafr : alloc_from_region region (size_align ls la).1 (size_align ls la).2 =
        some alloc_start := by
      obtain ⟨l1, l3, he1, he2, he3⟩ := find_region_some hfind
      exact he3
    obtain ⟨hps, hlt, hle, hsliver⟩ := alloc_from_region_some hafr
    split at h
    · rename_i hca
      exfalso
      unfold checked_add at hca
      rw [if_pos hlt] at hca
      cases hca
    · rename_i alloc_end hca
      have hend : alloc_end = alloc_start + (size_align ls la).1 := by
        unfold checked_add at hca
        rw [if_pos hlt] at hca
        cases hca
        rfl
      subst hend
      split at h
      · rename_i hpos
        split at h
        · rename_i m hadd
          cases h
          obtain ⟨ha1, ha2, ha3⟩ := add_free_region_some hadd
          obtain ⟨l1, l3, he1, he2, he3⟩ := find_region_some hfind
          refine ⟨region, l1, l3, by rw [hfind, he2], he1, hafr, Or.inr ?_⟩
          exact ⟨by omega, ha1, ha2, by rw [ha3, he2]⟩
        · cases h
      · rename_i hpos
        cases h
        obtain ⟨l1, l3, he1, he2, he3⟩ := find_region_some hfind
        refine ⟨region, l1, l3, by rw [hfind, he2], he1, hafr, Or.inl ?_⟩
        exact ⟨by omega, he2⟩

theorem pow_le_pow62 {k : Nat} (hk : k ≤ 62) : (2 : Nat) ^ k ≤ 2 ^ 62 :=
  Nat.pow_le_pow_right (by norm_num) hk

theorem inv_init {A N : Nat} (hA : A + N ≤ 2 ^ 63) {l : List Region}
    (h : ll_init A N = some l) : Inv A N ⟨l, [], 0⟩ := by
  obtain ⟨ha, hn, hl⟩ := add_free_region_some h
  subst hl
  have h8 : 8 ∣ A := by
    have hov : A + 8 ≤ USIZE := by
      unfold USIZE
      have : (2 : Nat) ^ 63 + 8 ≤ 2 ^ 64 := by norm_num
      omega
    exact (align_up_eight A hov).mp ha
  refine ⟨?_, ?_, ?_, ?_, ?_⟩
  · simp [insertRegion]
  · intro r hr
    simp only [insertRegion, List.mem_singleton] at hr
    subst hr
    exact ⟨hn, h8, le_refl A, le_refl _⟩
  · intro e he
    simp at he
  · simp [spans, insertRegion]
  · simp [spans, insertRegion, sumSize]

theorem inv_alloc {A N : Nat} (hA : A + N ≤ 2 ^ 63) {s : LLState} (hinv : Inv A N s)
    {q : Request} (hq : LayoutValid q) {p : Nat} {l2 : List Region}
    (h : ll_alloc s.free q.lsize q.lalign = .ptr p l2) :
    Inv A N ⟨l2, (p, q) :: s.live, s.leaked + ll_alloc_leak s.free q.lsize q.lalign⟩ := by
  obtain ⟨r, l1, l3, hfind, hsplit, hafr, hcase⟩ := ll_alloc_ptr h
  obtain ⟨k, hk3, hk62, halk, hdvd8, hlsz, hsz63⟩ := size_align_spec q hq
  have hps1 : (size_align q.lsize q.lalign).1 = padded_size q := rfl
  have hps2 : (size_align q.lsize q.lalign).2 = padded_align q := rfl
  simp only [hps1, hps2] at hfind hafr hcase
  set sz := padded_size q with hszdef
  set e := p + sz with hedef
  have hrmem : r ∈ s.free := by
    rw [hsplit]
    simp
  obtain ⟨hr16, hr8, hrA, hrstop⟩ := hinv.freeOK r hrmem
  obtain ⟨hpeq, hplt, hple, hsliver⟩ := alloc_from_region_some hafr
  have hpow0 : (0 : Nat) < 2 ^ k := Nat.two_pow_pos k
  have hkle : (2 : Nat) ^ k ≤ 2 ^ 62 := pow_le_pow62 hk62
  have hpow63 : (2 : Nat) ^ 63 + 2 ^ 62 ≤ 2 ^ 64 := by norm_num
  have hpru : align_up r.start (padded_align q) = roundUp r.start (2 ^ k) := by
    rw [halk]
    refine align_up_eq_roundUp _ _ (by omega) ?_
    unfold USIZE
    unfold Region.stop at hrstop
    omega
  have hrp : r.start ≤ p := by
    rw [hpeq, hpru]
    exact roundUp_ge _ _ hpow0
  have hp8 : 8 ∣ p := by
    have hdk : (2 : Nat) ^ k ∣ p := by
      rw [hpeq, hpru]
      exact dvd_roundUp _ _
    refine dvd_trans ?_ hdk
    have h83 : (8 : Nat) = 2 ^ 3 := by norm_num
    rw [h83]
    exact pow_dvd_pow 2 hk3
  have hleak : ll_alloc_leak s.free q.lsize q.lalign = p - r.start := by
    unfold ll_alloc_leak
    rw [hps1, hps2, hfind]
  have hfree : List.Pairwise Before (l1 ++ l3) := by
    have hsub : (l1 ++ l3).Sublist (l1 ++ r :: l3) := by
      refine List.Sublist.append_left ?_ l1
      exact List.sublist_cons_self r l3
    exact (hsplit ▸ hinv.freeOrder).sublist hsub
  have hmemfree : ∀ x ∈ l1 ++ l3, x ∈ s.free := by
    intro x hx
    rw [hsplit]
    rcases List.mem_append.mp hx with hx | hx
    · exact List.mem_append.mpr (Or.inl hx)
    · exact List.mem_append.mpr (Or.inr (by simp [hx]))
  have hrdisj : ∀ x ∈ l1 ++ l3, Disj r x :=
    pairwise_middle_disj (hsplit ▸ hinv.freeOrder)
  have hstix : r.stop = r.start + r.size := rfl
  -- permutation of the old spans exposing the chosen region
  have hPS := s.live.map padded_span
  have hperm0 : (spans s).Perm (r :: ((l1 ++ l3) ++ s.live.map padded_span)) := by
    unfold spans
    rw [hsplit, List.append_assoc]
    refine (List.perm_middle).trans ?_
    rw [List.append_assoc]
    exact List.Perm.rfl
  have hsep0 : List.Pairwise Disj (r :: ((l1 ++ l3) ++ s.live.map padded_span)) :=
    (hperm0.pairwise_iff disj_symm).mp hinv.sep
  have hrdisj2 : ∀ x ∈ (l1 ++ l3) ++ s.live.map padded_span, Disj r x :=
    fun x hx => List.rel_of_pairwise_cons hsep0 hx
  have hcons0 := hinv.conserve
  have hsum0 : sumSize (spans s) =
      r.size + sumSize ((l1 ++ l3) ++ s.live.map padded_span) := by
    rw [sumSize_perm hperm0, sumSize_cons]
  rcases hcase with ⟨hstop, hl2⟩ | ⟨hlt2, hal2, hn2, hl2⟩
  · -- exact fit: no excess region is re-inserted
    subst hl2
    have hspan : spans ⟨l1 ++ l3, (p, q) :: s.live, s.leaked +
        ll_alloc_leak s.free q.lsize q.lalign⟩ =
        (l1 ++ l3) ++ (⟨p, sz⟩ :: s.live.map padded_span) := by
      unfold spans padded_span
      simp
    have hperm1 : ((l1 ++ l3) ++ (⟨p, sz⟩ :: s.live.map padded_span)).Perm
        ((⟨p, sz⟩ : Region) :: ((l1 ++ l3) ++ s.live.map padded_span)) :=
      List.perm_middle
    refine ⟨hfree, ?_, ?_, ?_, ?_⟩
    · intro x hx
      exact hinv.freeOK x (hmemfree x hx)
    · intro x hx
      rcases List.mem_cons.mp hx with hx | hx
      · subst hx
        refine ⟨hq, hp8, le_trans hrA hrp, ?_⟩
        show p + sz ≤ A + N
        have hx2 : r.stop = r.start + r.size := rfl
        omega
      · exact hinv.liveOK x hx
    · rw [hspan]
      refine (hperm1.pairwise_iff disj_symm).mpr ?_
      refine List.Pairwise.cons ?_ hsep0.of_cons
      intro y hy
      refine disj_subspan (hrdisj2 y hy) hrp ?_
      show Region.stop ⟨p, sz⟩ ≤ r.stop
      have hx2 : r.stop = r.start + r.size := rfl
      show p + sz ≤ r.stop
      omega
    · rw [hspan, sumSize_perm hperm1, sumSize_cons, hleak]
      show Region.size ⟨p, sz⟩ + sumSize ((l1 ++ l3) ++ s.live.map padded_span) +
        (s.leaked + (p - r.start)) = N
      have hx2 : r.stop = r.start + r.size := rfl
      show sz + sumSize ((l1 ++ l3) ++ s.live.map padded_span) +
        (s.leaked + (p - r.start)) = N
      omega
  · -- leftover tail: the excess region is re-inserted
    set ex := r.stop - e with hexdef
    subst hl2
    have hexsub : ∀ x ∈ l1 ++ l3, Disj ⟨e, ex⟩ x := by
      intro x hx
      refine disj_subspan (hrdisj x hx) (show r.start ≤ e by omega) ?_
      show e + ex ≤ r.stop
      omega
    have hspan : spans ⟨insertRegion (l1 ++ l3) e ex, (p, q) :: s.live, s.leaked +
        ll_alloc_leak s.free q.lsize q.lalign⟩ =
        insertRegion (l1 ++ l3) e ex ++ (⟨p, sz⟩ :: s.live.map padded_span) := by
      unfold spans padded_span
      simp
    have hperm1 : (insertRegion (l1 ++ l3) e ex ++
        (⟨p, sz⟩ :: s.live.map padded_span)).Perm
        ((⟨e, ex⟩ : Region) :: (⟨p, sz⟩ : Region) ::
          ((l1 ++ l3) ++ s.live.map padded_span)) := by
      refine ((insertRegion_perm (l1 ++ l3) e ex).append_right _).trans ?_
      rw [List.cons_append]
      exact List.Perm.cons _ List.perm_middle
    refine ⟨?_, ?_, ?_, ?_, ?_⟩
    · refine insertRegion_pairwise hfree ?_ hexsub (by omega)
      intro x hx
      have h16 := (hinv.freeOK x (hmemfree x hx)).1
      unfold NODE_SIZE at h16
      omega
    · intro x hx
      rcases insertRegion_mem hx with hx | hx
      · subst hx
        refine ⟨hn2, ?_, ?_, ?_⟩
        · have hov : e + 8 ≤ USIZE := by
            unfold USIZE
            have h8' : (2 : Nat) ^ 63 + 8 ≤ 2 ^ 64 := by norm_num
            omega
          exact (align_up_eight e hov).mp hal2
        · show A ≤ e
          omega
        · show e + ex ≤ A + N
          omega
      · exact hinv.freeOK x (hmemfree x hx)
    · intro x hx
      rcases List.mem_cons.mp hx with hx | hx
      · subst hx
        refine ⟨hq, hp8, le_trans hrA hrp, ?_⟩
        show p + sz ≤ A + N
        omega
      · exact hinv.liveOK x hx
    · rw [hspan]
      refine (hperm1.pairwise_iff disj_symm).mpr ?_
      refine @pairwise_disj_parts r ((l1 ++ l3) ++ s.live.map padded_span)
        [⟨e, ex⟩, ⟨p, sz⟩] hsep0 ?_ ?_
      · intro x hx
        simp only [List.mem_cons, List.mem_singleton] at hx
        rcases hx with hx | hx | hx
        · subst hx
          refine ⟨show r.start ≤ e by omega, ?_⟩
          show e + ex ≤ r.stop
          omega
        · subst hx
          refine ⟨hrp, ?_⟩
          show p + sz ≤ r.stop
          omega
        · simp at hx
      · refine List.Pairwise.cons ?_ (by simp)
        intro y hy
        simp only [List.mem_singleton] at hy
        subst hy
        right
        show p + sz ≤ e
        omega
    · rw [hspan, sumSize_perm hperm1, sumSize_cons, sumSize_cons, hleak]
      show Region.size ⟨e, ex⟩ + (Region.size ⟨p, sz⟩ +
        sumSize ((l1 ++ l3) ++ s.live.map padded_span)) +
        (s.leaked + (p - r.start)) = N
      show ex + (sz + sumSize ((l1 ++ l3) ++ s.live.map padded_span)) +
        (s.leaked + (p - r.start)) = N
      omega

theorem inv_dealloc {A N : Nat} (hA : A + N ≤ 2 ^ 63) {s : LLState} (hinv : Inv A N s)
    {p : Nat} {q : Request} {pre post : List (Nat × Request)}
    (hm : s.live = pre ++ (p, q) :: post) {l2 : List Region}
    (h : ll_dealloc s.free p q.lsize q.lalign = some l2) :
    Inv A N ⟨l2, pre ++ post, s.leaked⟩ := by
  obtain ⟨hal, hn16, hl2⟩ := ll_dealloc_some h
  have hps1 : (size_align q.lsize q.lalign).1 = padded_size q := rfl
  rw [hps1] at hn16 hl2
  set sz := padded_size q with hszdef
  obtain ⟨hqv, hp8, hpA, hpstop⟩ := hinv.liveOK (p, q) (by rw [hm]; simp)
  have hsz16 : NODE_SIZE ≤ sz := padded_size_node q
  set m := insertRegion s.free p sz with hmdef
  subst hl2
  have hpermlive : s.live.Perm ((p, q) :: (pre ++ post)) := by
    rw [hm]
    exact List.perm_middle
  have hpermPS : (s.live.map padded_span).Perm
      ((⟨p, sz⟩ : Region) :: (pre ++ post).map padded_span) := by
    have hmap := hpermlive.map padded_span
    simpa [padded_span] using hmap
  have hpermS : (spans s).Perm
      ((⟨p, sz⟩ : Region) :: (s.free ++ (pre ++ post).map padded_span)) := by
    unfold spans
    refine ((hpermPS.append_left s.free)).trans ?_
    exact List.perm_middle
  have hsep1 : List.Pairwise Disj
      ((⟨p, sz⟩ : Region) :: (s.free ++ (pre ++ post).map padded_span)) :=
    (hpermS.pairwise_iff disj_symm).mp hinv.sep
  have hnewdisj : ∀ x ∈ s.free ++ (pre ++ post).map padded_span,
      Disj ⟨p, sz⟩ x := fun x hx => List.rel_of_pairwise_cons hsep1 hx
  have hsep2 := hsep1.of_cons
  have hcross := List.pairwise_append.mp hsep2
  have hmmem : ∀ x ∈ m, x = (⟨p, sz⟩ : Region) ∨ x ∈ s.free := fun x hx =>
    insertRegion_mem hx
  have hmdisj : ∀ y ∈ (pre ++ post).map padded_span, ∀ x ∈ m, Disj x y := by
    intro y hy x hx
    rcases hmmem x hx with hx | hx
    · subst hx
      exact hnewdisj y (List.mem_append.mpr (Or.inr hy))
    · exact hcross.2.2 x hx y hy
  have hmOK : ∀ x ∈ m, NODE_SIZE ≤ x.size ∧ 8 ∣ x.start ∧ A ≤ x.start ∧
      x.stop ≤ A + N := by
    intro x hx
    rcases hmmem x hx with hx | hx
    · subst hx
      refine ⟨hsz16, hp8, hpA, ?_⟩
      show p + sz ≤ A + N
      exact hpstop
    · exact hinv.freeOK x hx
  have hmpair : List.Pairwise Before m := by
    refine insertRegion_pairwise hinv.freeOrder ?_ ?_ ?_
    · intro x hx
      have h16 := (hinv.freeOK x hx).1
      unfold NODE_SIZE at h16
      omega
    · intro x hx
      exact hnewdisj x (List.mem_append.mpr (Or.inl hx))
    · unfold NODE_SIZE at hsz16
      omega
  have hmergeOK : ∀ x ∈ merge_region m, NODE_SIZE ≤ x.size ∧ 8 ∣ x.start ∧
      A ≤ x.start ∧ x.stop ≤ A + N := by
    refine merge_region_pres _ ?_ m hmOK
    intro u v hu hv huv
    unfold Region.stop at huv hu hv ⊢
    dsimp only
    refine ⟨by omega, hu.2.1, hu.2.2.1, by omega⟩
  refine ⟨merge_region_pairwise hmpair, hmergeOK, ?_, ?_, ?_⟩
  · intro x hx
    refine hinv.liveOK x ?_
    rw [hm]
    rcases List.mem_append.mp hx with hx | hx
    · exact List.mem_append.mpr (Or.inl hx)
    · exact List.mem_append.mpr (Or.inr (by simp [hx]))
  · show List.Pairwise Disj
      (merge_region m ++ (pre ++ post).map padded_span)
    rw [List.pairwise_append]
    refine ⟨(merge_region_pairwise hmpair).imp (fun hb => Or.inl hb), hcross.2.1, ?_⟩
    intro x hx y hy
    refine merge_region_disj ?_ (fun x' hx' => hmdisj y hy x' hx') x hx
    obtain ⟨el, hel, hely⟩ := List.mem_map.mp hy
    have hpos := padded_size_pos el.2
    rw [← hely]
    unfold padded_span
    simpa using hpos
  · show sumSize (merge_region m ++ (pre ++ post).map padded_span) +
      s.leaked = N
    rw [sumSize_append, merge_region_sum, sumSize_perm (insertRegion_perm _ _ _),
      sumSize_cons]
    have hc := hinv.conserve
    unfold spans at hc
    rw [sumSize_append] at hc
    have hps := sumSize_perm hpermPS
    rw [sumSize_cons] at hps
    dsimp only at hps hc ⊢
    omega

/-- Every reachable free-list state satisfies the full invariant. -/
theorem inv_of_reach {A N : Nat} (hA : A + N ≤ 2 ^ 63) {s : LLState}
    (h : LLReach A N s) : Inv A N s := by
  induction h with
  | init l hl => exact inv_init hA hl
  | alloc s q p l2 hs hq hstep ih => exact inv_alloc hA ih hq hstep
  | dealloc s p q l2 pre post hs hm hstep ih => exact inv_dealloc hA ih hm hstep

/-! Claim C3: disjointness / order invariant. -/

theorem insertRegion_splice {l : List Region} {addr : Nat} (n : Nat)
    (hne : ∀ r ∈ l, r.start ≠ addr) :
    insertRegion l addr n =
      l.takeWhile (fun r => decide (r.start < addr)) ++ ⟨addr, n⟩ ::
        l.dropWhile (fun r => decide (r.start < addr)) := by
  induction l with
  | nil => rfl
  | cons r rs ih =>
    unfold insertRegion
    rw [List.takeWhile_cons, List.dropWhile_cons]
    by_cases h : addr ≤ r.start
    · rw [if_pos h]
      have hlt : ¬ (r.start < addr) := by omega
      simp [hlt]
    · rw [if_neg h]
      have hlt : r.start < addr := by omega
      rw [ih (fun x hx => hne x (by simp [hx]))]
      simp [hlt]

/-- C3: in every free-list state reachable from `init` by matched
`alloc`/`dealloc` calls, the free regions are pairwise non-overlapping and
strictly increasing by start address; and `add_free_region` splices a new
region immediately before the first node whose start address exceeds the new
address (stated for lists in which no node starts exactly at the new address,
which holds in all reachable states since a freed block never coincides with
a free node). -/
theorem free_list_disjoint_sorted (A N : Nat) (hA : A + N ≤ 2 ^ 63)
    (s : LLState) (hs : LLReach A N s)
    (l : List Region) (addr n : Nat) (hne : ∀ r ∈ l, r.start ≠ addr) :
    List.Pairwise (fun a b : Region => a.stop ≤ b.start ∧ a.start < b.start)
      s.free ∧
    insertRegion l addr n =
      l.takeWhile (fun r => decide (r.start < addr)) ++ ⟨addr, n⟩ ::
        l.dropWhile (fun r => decide (r.start < addr)) := by
  have hinv := inv_of_reach hA hs
  constructor
  · refine List.Pairwise.imp_of_mem ?_ hinv.freeOrder
    intro a b ha hb hab
    have h16 := (hinv.freeOK a ha).1
    refine ⟨hab, ?_⟩
    unfold Before Region.stop at hab
    unfold NODE_SIZE at h16
    omega
  · exact insertRegion_splice n hne

/-- Closed instance of the disjointness / order invariant at the initial
state of a 4096-byte arena, together with a concrete splice. -/
theorem free_list_disjoint_sorted_witness :
    LLReach 4096 4096 ⟨[⟨4096, 4096⟩], [], 0⟩ ∧
    (List.Pairwise (fun a b : Region => a.stop ≤ b.start ∧ a.start < b.start)
        (LLState.mk [⟨4096, 4096⟩] [] 0).free ∧
      insertRegion [⟨64, 16⟩] 8 16 =
        [(⟨64, 16⟩ : Region)].takeWhile (fun r => decide (r.start < 8)) ++
          ⟨8, 16⟩ :: [(⟨64, 16⟩ : Region)].dropWhile (fun r => decide (r.start < 8))) :=
  ⟨LLReach.init _ (by decide),
    free_list_disjoint_sorted 4096 4096 (by norm_num) _ (LLReach.init _ (by decide))
      [⟨64, 16⟩] 8 16 (by decide)⟩

/-! Claim C4: conservation. -/

/-- C4 (amended): at every quiescent point of the free-list backend, the free
bytes plus the live allocated bytes (as padded by `size_align`) plus the bytes
dropped as front padding by past aligned allocations equal the arena size.
The `alloc` path re-inserts only the excess after the allocation end
(`region.end_addr() - alloc_end`); the gap between the chosen region's start
and the aligned allocation start is dropped from all bookkeeping. -/
theorem free_list_conservation_leak (A N : Nat) (hA : A + N ≤ 2 ^ 63)
    (s : LLState) (hs : LLReach A N s) :
    sumSize s.free + sumSize (s.live.map padded_span) + s.leaked = N := by
  have hinv := inv_of_reach hA hs
  have hc := hinv.conserve
  unfold spans at hc
  rw [sumSize_append] at hc
  exact hc

/-- Closed instance of conservation at a reachable state with live blocks. -/
theorem free_list_conservation_leak_witness :
    LLReach 4096 4096 ⟨[⟨4120, 4072⟩], [(4096, ⟨24, 8⟩)], 0⟩ ∧
    sumSize [(⟨4120, 4072⟩ : Region)] +
      sumSize ([((4096 : Nat), (⟨24, 8⟩ : Request))].map padded_span) + 0 = 4096 := by
  have hq1 : LayoutValid ⟨24, 8⟩ := ⟨⟨3, by norm_num, rfl⟩, by norm_num⟩
  have s0 : LLReach 4096 4096 ⟨[⟨4096, 4096⟩], [], 0⟩ := LLReach.init _ (by decide)
  have s1 : LLReach 4096 4096 ⟨[⟨4120, 4072⟩], [(4096, ⟨24, 8⟩)], 0⟩ := by
    have h := LLReach.alloc _ ⟨24, 8⟩ 4096 [⟨4120, 4072⟩] s0 hq1 (by decide)
    exact h
  exact ⟨s1, free_list_conservation_leak 4096 4096 (by norm_num) _ s1⟩

/-- C4 counterexample: after an aligned allocation whose front padding is
dropped, free bytes plus live padded bytes no longer equal the arena size
(4048 + 40 = 4088 ≠ 4096; 8 bytes of front padding were leaked). -/
theorem free_list_conservation_cex :
    LLReach 4096 4096
      ⟨[⟨4144, 4048⟩], [(4128, ⟨16, 16⟩), (4096, ⟨24, 8⟩)], 8⟩ ∧
    sumSize [(⟨4144, 4048⟩ : Region)] +
      sumSize ([((4128 : Nat), (⟨16, 16⟩ : Request)),
        ((4096 : Nat), (⟨24, 8⟩ : Request))].map padded_span) ≠ 4096 := by
  have hq1 : LayoutValid ⟨24, 8⟩ := ⟨⟨3, by norm_num, rfl⟩, by norm_num⟩
  have hq2 : LayoutValid ⟨16, 16⟩ := ⟨⟨4, by norm_num, rfl⟩, by norm_num⟩
  have s0 : LLReach 4096 4096 ⟨[⟨4096, 4096⟩], [], 0⟩ := LLReach.init _ (by decide)
  have s1 : LLReach 4096 4096 ⟨[⟨4120, 4072⟩], [(4096, ⟨24, 8⟩)], 0⟩ := by
    have h := LLReach.alloc _ ⟨24, 8⟩ 4096 [⟨4120, 4072⟩] s0 hq1 (by decide)
    exact h
  have s2 : LLReach 4096 4096
      ⟨[⟨4144, 4048⟩], [(4128, ⟨16, 16⟩), (4096, ⟨24, 8⟩)], 8⟩ := by
    have h := LLReach.alloc _ ⟨16, 16⟩ 4128 [⟨4144, 4048⟩] s1 hq2 (by decide)
    exact h
  exact ⟨s2, by decide⟩

/-! Claim C1: the alloc/dealloc round trip. -/

/-- One `allocate(64, 8)` immediately followed by `deallocate` of the returned
block with the same layout. -/
def roundTrip (l : List Region) : Option (List Region) :=
  match ll_alloc l 64 8 with
  | .ptr p l2 => ll_dealloc l2 p 64 8
  | _ => none

/-- `roundTrip` iterated `n` times. -/
def roundTripN : Nat → List Region → Option (List Region)
  | 0, l => some l
  | n + 1, l =>
    match roundTrip l with
    | some l2 => roundTripN n l2
    | none => none

theorem roundTrip_id (S : Nat) (h8 : 8 ∣ S) (hS : S + 4096 ≤ 2 ^ 63) :
    roundTrip [⟨S, 4096⟩] = some [⟨S, 4096⟩] := by
  have hU : (2 : Nat) ^ 63 + 8 ≤ USIZE := by unfold USIZE; norm_num
  have ha1 : align_up S 8 = S := (align_up_eight S (by omega)).mpr h8
  have ha2 : align_up (S + 64) 8 = S + 64 :=
    (align_up_eight _ (by omega)).mpr (Nat.dvd_add h8 (by norm_num))
  have hsa : size_align 64 8 = (64, 8) := by decide
  have c1 : (S + 64 < USIZE) = True := eq_true (by omega)
  have c2 : (Region.stop ⟨S, 4096⟩ < S + 64) = False := by
    refine eq_false ?_
    show ¬ (S + 4096 < S + 64)
    omega
  have c3 : (0 < Region.stop ⟨S, 4096⟩ - (S + 64) ∧
      Region.stop ⟨S, 4096⟩ - (S + 64) < NODE_SIZE) = False := by
    refine eq_false ?_
    show ¬ (0 < S + 4096 - (S + 64) ∧ S + 4096 - (S + 64) < NODE_SIZE)
    unfold NODE_SIZE
    omega
  have c4 : (0 < Region.stop ⟨S, 4096⟩ - (S + 64)) = True := by
    refine eq_true ?_
    show 0 < S + 4096 - (S + 64)
    omega
  have g1 : Region.stop ⟨S, 4096⟩ - (S + 64) = 4032 := by
    show S + 4096 - (S + 64) = 4032
    omega
  have c5 : (S ≤ S + 64) = True := eq_true (by omega)
  have c6 : (Region.stop ⟨S, 64⟩ = Region.start ⟨S + 64, 4032⟩) = True := by
    refine eq_true ?_
    show S + 64 = S + 64
    rfl
  have g2 : S + 64 + 4032 - S = 4096 := by omega
  have cA : ((0 : Nat) < 4032 ∧ (4032 : Nat) < 16) = False := by norm_num
  simp only [roundTrip, ll_alloc, ll_dealloc, find_region, add_free_region,
    insertRegion, alloc_from_region, checked_add, merge_region, NODE_SIZE,
    NODE_ALIGN, hsa, ha1, ha2, c1, c2, c4, c5, c6, cA, g1, g2,
    if_true, if_false, ite_true, ite_false, and_true, true_and,
    eq_self_iff_true, show ((16 : Nat) ≤ 4032) = True from by norm_num,
    show ((16 : Nat) ≤ 64) = True from by norm_num,
    show ((0 : Nat) < 4032) = True from by norm_num,
    show ((4032 : Nat) < 16) = False from by norm_num]

theorem roundTripN_id {l : List Region} (h : roundTrip l = some l) :
    ∀ n, roundTripN n l = some l := by
  intro n
  induction n with
  | zero => rfl
  | succ n ih =>
    unfold roundTripN
    rw [h]
    exact ih

/-- C1: on an empty 4096-byte arena (one free region covering the arena),
`allocate(64, 8)` immediately followed by `deallocate` of that block, repeated
1000 times, leaves the free list with exactly one region whose start is the
arena start and whose size is the whole arena. -/
theorem free_list_roundtrip_1000 (S : Nat) (h8 : 8 ∣ S)
    (hS : S + 4096 ≤ 2 ^ 63) :
    roundTripN 1000 [⟨S, 4096⟩] = some [⟨S, 4096⟩] :=
  roundTripN_id (roundTrip_id S h8 hS) 1000

/-- Closed instance of the 1000-fold round trip at arena start 4096. -/
theorem free_list_roundtrip_1000_witness :
    (8 ∣ (4096 : Nat)) ∧ 4096 + 4096 ≤ 2 ^ 63 ∧
      roundTripN 1000 [⟨4096, 4096⟩] = some [⟨4096, 4096⟩] :=
  ⟨by decide, by norm_num,
    free_list_roundtrip_1000 4096 (by decide) (by norm_num)⟩

/-! Claim C2: the merge pass. -/

/-- A maximal run of pairwise-adjacent free regions starting at `a` with the
given sizes. -/
def adjacentRun (a : Nat) : List Nat → List Region
  | [] => []
  | n :: ns => ⟨a, n⟩ :: adjacentRun (a + n) ns

/-- C2 counterexample: on three pairwise-adjacent regions, one call to
`merge_region` merges only the first pair and leaves two regions, because the
pass advances past the extended node instead of re-checking it against its
new successor. -/
theorem merge_region_no_cascade_cex :
    merge_region [⟨0, 16⟩, ⟨16, 16⟩, ⟨32, 16⟩] = [⟨0, 32⟩, ⟨32, 16⟩] ∧
    (merge_region [⟨0, 16⟩, ⟨16, 16⟩, ⟨32, 16⟩]).length ≠ 1 := by decide

/-- The region sizes left by one merge pass over a maximal adjacent run:
adjacent sizes are absorbed pairwise, one pair per emitted node. -/
def pairSums : List Nat → List Nat
  | [] => []
  | [n] => [n]
  | n1 :: n2 :: rest => (n1 + n2) :: pairSums rest

/-- C2 (amended): `merge_region` is one left-to-right pass in which, whenever
a node's end address equals its successor's start address, the successor's
size is absorbed and the successor unlinked, but the pass then advances past
the extended node without re-checking it against its new successor; hence one
call turns a run of `n` pairwise-adjacent regions into the run whose sizes
are the pairwise sums — `⌈n / 2⌉ = (n + 1) / 2` regions — rather than into
one region. -/
theorem merge_region_single_pass :
    ∀ (ns : List Nat) (a : Nat),
      merge_region (adjacentRun a ns) = adjacentRun a (pairSums ns) ∧
      (merge_region (adjacentRun a ns)).length = (ns.length + 1) / 2
  | [], a => by simp [adjacentRun, merge_region, pairSums]
  | [n], a => by simp [adjacentRun, merge_region, pairSums]
  | n1 :: n2 :: rest, a => by
    have ih := merge_region_single_pass rest (a + n1 + n2)
    constructor
    · show merge_region (⟨a, n1⟩ :: ⟨a + n1, n2⟩ :: adjacentRun (a + n1 + n2) rest) =
        (⟨a, n1 + n2⟩ : Region) :: adjacentRun (a + (n1 + n2)) (pairSums rest)
      unfold merge_region
      rw [if_pos (show Region.stop ⟨a, n1⟩ = Region.start ⟨a + n1, n2⟩ from rfl)]
      have harg : a + (n1 + n2) = a + n1 + n2 := by omega
      rw [harg, ih.1]
      have hsz : a + n1 + n2 - a = n1 + n2 := by omega
      rw [hsz]
    · show (merge_region (⟨a, n1⟩ :: ⟨a + n1, n2⟩ :: adjacentRun (a + n1 + n2) rest)).length =
        (rest.length + 2 + 1) / 2
      unfold merge_region
      rw [if_pos (show Region.stop ⟨a, n1⟩ = Region.start ⟨a + n1, n2⟩ from rfl)]
      simp only [List.length_cons]
      rw [ih.2]
      omega

/-! Claim C6: sliver rejection helpers. -/

theorem alloc_from_region_aligned (s n sz a : Nat) (ha : align_up s a = s)
    (hlt : s + sz < USIZE) (hle : sz ≤ n)
    (hex : n - sz = 0 ∨ NODE_SIZE ≤ n - sz) :
    alloc_from_region ⟨s, n⟩ sz a = some s := by
  unfold alloc_from_region checked_add
  dsimp only
  rw [ha, if_pos hlt]
  dsimp only
  have h2 : ¬ (Region.stop ⟨s, n⟩ < s + sz) := by
    show ¬ (s + n < s + sz)
    omega
  rw [if_neg h2]
  have h3 : ¬ (0 < Region.stop ⟨s, n⟩ - (s + sz) ∧
      Region.stop ⟨s, n⟩ - (s + sz) < NODE_SIZE) := by
    show ¬ (0 < s + n - (s + sz) ∧ s + n - (s + sz) < NODE_SIZE)
    unfold NODE_SIZE at *
    omega
  rw [if_neg h3]

theorem alloc_from_region_sliver (s n sz a : Nat) (ha : align_up s a = s)
    (hlt : s + sz < USIZE) (hle : sz ≤ n) (hex : 0 < n - sz)
    (hex2 : n - sz < NODE_SIZE) :
    alloc_from_region ⟨s, n⟩ sz a = none := by
  unfold alloc_from_region checked_add
  dsimp only
  rw [ha, if_pos hlt]
  dsimp only
  have h2 : ¬ (Region.stop ⟨s, n⟩ < s + sz) := by
    show ¬ (s + n < s + sz)
    omega
  rw [if_neg h2]
  have h3 : 0 < Region.stop ⟨s, n⟩ - (s + sz) ∧
      Region.stop ⟨s, n⟩ - (s + sz) < NODE_SIZE := by
    show 0 < s + n - (s + sz) ∧ s + n - (s + sz) < NODE_SIZE
    unfold NODE_SIZE at *
    omega
  rw [if_pos h3]

/-- C6: `alloc_from_region` fails whenever the leftover after the aligned
allocation end is positive but smaller than the minimum node size — stated
for an arbitrary region, requested size and alignment; in particular, with an
aligned region start, a region exactly one byte short of `size + NODE_SIZE`
is rejected (and the first-fit scan skips it) even though it fits the payload
alone, while leftover exactly zero or at least `NODE_SIZE` is accepted. -/
theorem sliver_rejection (r : Region) (rsz ral : Nat)
    (hov0 : align_up r.start ral + rsz < USIZE)
    (hle0 : align_up r.start ral + rsz ≤ r.stop)
    (hpos : 0 < r.stop - (align_up r.start ral + rsz))
    (hsmall : r.stop - (align_up r.start ral + rsz) < NODE_SIZE)
    (s sz a kk : Nat) (ha : align_up s a = s)
    (hov : s + sz + NODE_SIZE ≤ USIZE) (hk : NODE_SIZE ≤ kk)
    (hov2 : s + sz + kk ≤ USIZE) :
    alloc_from_region r rsz ral = none ∧
    alloc_from_region ⟨s, sz + (NODE_SIZE - 1)⟩ sz a = none ∧
    find_region [⟨s, sz + (NODE_SIZE - 1)⟩] sz a = none ∧
    alloc_from_region ⟨s, sz⟩ sz a = some s ∧
    alloc_from_region ⟨s, sz + kk⟩ sz a = some s := by
  have hns : NODE_SIZE = 16 := rfl
  have hgen : alloc_from_region r rsz ral = none := by
    unfold alloc_from_region checked_add
    dsimp only
    rw [if_pos hov0]
    dsimp only
    rw [if_neg (show ¬ (r.stop < align_up r.start ral + rsz) from by omega)]
    rw [if_pos ⟨hpos, hsmall⟩]
  have h1 : alloc_from_region ⟨s, sz + (NODE_SIZE - 1)⟩ sz a = none := by
    refine alloc_from_region_sliver s _ sz a ha (by omega) (by omega) (by omega)
      (by omega)
  refine ⟨hgen, h1, ?_, ?_, ?_⟩
  · unfold find_region
    rw [h1]
    rfl
  · exact alloc_from_region_aligned s sz sz a ha (by omega) (by omega) (by omega)
  · exact alloc_from_region_aligned s _ sz a ha (by omega) (by omega) (by omega)

/-- Closed instance of sliver rejection (leftover 8 on one region, leftover
15 on another) and acceptance at concrete inputs. -/
theorem sliver_rejection_witness :
    alloc_from_region ⟨4096, 72⟩ 64 8 = none ∧
    alloc_from_region ⟨4096, 64 + (NODE_SIZE - 1)⟩ 64 8 = none ∧
    find_region [⟨4096, 64 + (NODE_SIZE - 1)⟩] 64 8 = none ∧
    alloc_from_region ⟨4096, 64⟩ 64 8 = some 4096 ∧
    alloc_from_region ⟨4096, 64 + 16⟩ 64 8 = some 4096 :=
  sliver_rejection ⟨4096, 72⟩ 64 8 (by decide) (by decide) (by decide) (by decide)
    4096 64 8 16 (by decide) (by decide) (by decide) (by decide)

/-! Claim C5: overflow safety. -/

/-- C5: a request whose aligned start plus requested size would overflow the
address space is answered with the out-of-memory sentinel and never with a
wrapped-around address: the bump alloc returns null, and the free-list alloc
returns null when this holds of every free region.  (Stated for states whose
cursor/region starts do not overflow during the round-up itself.) -/
theorem overflow_returns_oom
    (b : BumpAllocator) (lsize k : Nat) (hk : k ≤ 63)
    (hnw : b.next + 2 ^ k ≤ USIZE)
    (hov : USIZE ≤ roundUp b.next (2 ^ k) + lsize)
    (l : List Region) (ls2 la2 : Nat) (hq2 : LayoutValid ⟨ls2, la2⟩)
    (hl : ∀ r ∈ l, r.start + padded_align ⟨ls2, la2⟩ ≤ USIZE ∧
      USIZE ≤ roundUp r.start (padded_align ⟨ls2, la2⟩) + ls2) :
    bump_alloc b lsize (2 ^ k) = none ∧ ll_alloc l ls2 la2 = .null := by
  constructor
  · unfold bump_alloc checked_add
    dsimp only
    rw [align_up_eq_roundUp _ _ hk hnw]
    rw [if_neg (by omega)]
  · obtain ⟨m, hm3, hm62, hal, hdvd, hls, h63⟩ := size_align_spec ⟨ls2, la2⟩ hq2
    have hnone : ∀ r ∈ l, alloc_from_region r (size_align ls2 la2).1
        (size_align ls2 la2).2 = none := by
      intro r hr
      obtain ⟨hnw2, hov2⟩ := hl r hr
      unfold alloc_from_region checked_add
      dsimp only
      have hnw2x : r.start + 2 ^ m ≤ USIZE := by
        rw [hal] at hnw2
        exact hnw2
      have hru : align_up r.start (size_align ls2 la2).2 =
          roundUp r.start (padded_align ⟨ls2, la2⟩) := by
        show align_up r.start (padded_align ⟨ls2, la2⟩) =
          roundUp r.start (padded_align ⟨ls2, la2⟩)
        rw [hal]
        exact align_up_eq_roundUp _ _ (by omega) hnw2x
      rw [hru]
      have hbig : ¬ (roundUp r.start (padded_align ⟨ls2, la2⟩) +
          (size_align ls2 la2).1 < USIZE) := by
        have hps1 : (size_align ls2 la2).1 = padded_size ⟨ls2, la2⟩ := rfl
        have hlsx : ls2 ≤ padded_size ⟨ls2, la2⟩ := hls
        rw [hps1]
        omega
      rw [if_neg hbig]
    unfold ll_alloc
    dsimp only
    rw [find_region_none hnone]

/-- Closed instance of overflow safety near the top of the address space. -/
theorem overflow_returns_oom_witness :
    bump_alloc ⟨0, 2 ^ 64, 2 ^ 64 - 8, 0⟩ 100 (2 ^ 3) = none ∧
      ll_alloc [⟨2 ^ 64 - 16, 16⟩] 32 8 = .null :=
  overflow_returns_oom ⟨0, 2 ^ 64, 2 ^ 64 - 8, 0⟩ 100 3 (by norm_num)
    (by decide) (by decide) [⟨2 ^ 64 - 16, 16⟩] 32 8
    ⟨⟨3, by norm_num, rfl⟩, by norm_num⟩ (by decide)

/-! Claim C7: bump allocator LIFO retraction and full reset. -/

theorem align_up_one (x : Nat) (hx : x < USIZE) : align_up x 1 = x := by
  have h := and_high_mask x 0 (by omega) hx
  unfold align_up
  have h1 : x + 1 - 1 = x := by omega
  rw [h1, Nat.mod_eq_of_lt hx]
  have h2 : (1 : Nat) - 1 = 2 ^ 0 - 1 := by norm_num
  rw [h2, h]
  simp

/-- C7: `dealloc` decrements the live count, retracts the cursor exactly when
the freed span's end equals the cursor, and resets the cursor to `heap_start`
exactly when the live count reaches zero; concretely, with heap size 1024,
after A = alloc(100) and B = alloc(50), freeing B retracts the cursor to B's
start and freeing A resets the cursor to `heap_start`. -/
theorem bump_lifo_reset
    (b : BumpAllocator) (ptr lsize : Nat) (h1 : 1 ≤ b.allocations)
    (S : Nat) (hS : S + 1024 ≤ 2 ^ 63) :
    ((bump_dealloc b ptr lsize).allocations = b.allocations - 1 ∧
      (bump_dealloc b ptr lsize).next =
        (if b.allocations = 1 then b.heap_start
         else if ptr + lsize = b.next then ptr else b.next)) ∧
    (bump_alloc (bump_init S 1024) 100 1 =
        some (S, ⟨S, S + 1024, S + 100, 1⟩) ∧
      bump_alloc ⟨S, S + 1024, S + 100, 1⟩ 50 1 =
        some (S + 100, ⟨S, S + 1024, S + 150, 2⟩) ∧
      bump_dealloc ⟨S, S + 1024, S + 150, 2⟩ (S + 100) 50 =
        ⟨S, S + 1024, S + 100, 1⟩ ∧
      bump_dealloc ⟨S, S + 1024, S + 100, 1⟩ S 100 = bump_init S 1024) := by
  have hU : (2 : Nat) ^ 63 + 1024 ≤ USIZE := by unfold USIZE; norm_num
  constructor
  · unfold bump_dealloc
    dsimp only
    by_cases hptr : ptr + lsize = b.next
    · rw [if_pos hptr]
      by_cases hz : b.allocations - 1 = 0
      · rw [if_pos hz]
        have hone : b.allocations = 1 := by omega
        exact ⟨rfl, by rw [if_pos hone]⟩
      · rw [if_neg hz]
        have hone : ¬ (b.allocations = 1) := by omega
        exact ⟨rfl, by rw [if_neg hone, if_pos hptr]⟩
    · rw [if_neg hptr]
      by_cases hz : b.allocations - 1 = 0
      · rw [if_pos hz]
        have hone : b.allocations = 1 := by omega
        exact ⟨rfl, by rw [if_pos hone]⟩
      · rw [if_neg hz]
        have hone : ¬ (b.allocations = 1) := by omega
        exact ⟨rfl, by rw [if_neg hone, if_neg hptr]⟩
  · have e1 : align_up S 1 = S := align_up_one S (by omega)
    have e2 : align_up (S + 100) 1 = S + 100 := align_up_one _ (by omega)
    have n1 : S + 100 + 50 = S + 150 := by omega
    refine ⟨?_, ?_, ?_, ?_⟩
    · have d1 : S + 100 < USIZE := by omega
      have d2 : ¬ (S + 1024 < S + 100) := by omega
      unfold bump_init bump_alloc checked_add
      dsimp only
      rw [e1, if_pos d1]
      dsimp only
      rw [if_neg d2]
    · have d3 : S + 100 + 50 < USIZE := by omega
      have d4 : ¬ (S + 1024 < S + 150) := by omega
      unfold bump_alloc checked_add
      dsimp only
      rw [e2, if_pos d3]
      dsimp only
      rw [n1, if_neg d4]
    · have d5 : ¬ ((2 : Nat) - 1 = 0) := by norm_num
      unfold bump_dealloc
      dsimp only
      rw [n1, if_pos rfl]
      dsimp only
      rw [if_neg d5]
    · unfold bump_dealloc bump_init
      dsimp only
      rw [if_pos rfl]
      dsimp only
      rw [if_pos (show (1 : Nat) - 1 = 0 from rfl)]

/-- Closed instance of the bump LIFO/reset behaviour at concrete inputs. -/
theorem bump_lifo_reset_witness :
    ((bump_dealloc ⟨0, 1024, 150, 2⟩ 100 50).allocations = 2 - 1 ∧
      (bump_dealloc ⟨0, 1024, 150, 2⟩ 100 50).next =
        (if (2 : Nat) = 1 then 0 else if 100 + 50 = 150 then 100 else 150)) ∧
    (bump_alloc (bump_init 4096 1024) 100 1 =
        some (4096, ⟨4096, 4096 + 1024, 4096 + 100, 1⟩) ∧
      bump_alloc ⟨4096, 4096 + 1024, 4096 + 100, 1⟩ 50 1 =
        some (4096 + 100, ⟨4096, 4096 + 1024, 4096 + 150, 2⟩) ∧
      bump_dealloc ⟨4096, 4096 + 1024, 4096 + 150, 2⟩ (4096 + 100) 50 =
        ⟨4096, 4096 + 1024, 4096 + 100, 1⟩ ∧
      bump_dealloc ⟨4096, 4096 + 1024, 4096 + 100, 1⟩ 4096 100 =
        bump_init 4096 1024) :=
  bump_lifo_reset ⟨0, 1024, 150, 2⟩ 100 50 (by norm_num) 4096 (by norm_num)

/-! The segregated fixed-size-block allocator
(`src/allocator/fixed_size_block.rs`).  Its per-class free lists (nodes are
bare `next` pointers overlaid on freed blocks, size and alignment 8) are
modelled as lists of block addresses; the fallback
`LinkedListAllocator::allocate` / `deallocate` are the free-list operations
above. -/

/-- `BLOCK_SIZES`: the fixed ladder of power-of-two classes. -/
def BLOCK_SIZES : List Nat := [8, 16, 32, 64, 128, 256, 512, 1024, 2048]

/-- `Iterator::position`: index of the first element satisfying the
predicate. -/
def position (p : Nat → Bool) : List Nat → Option Nat
  | [] => none
  | x :: xs => if p x then some 0 else (position p xs).map (· + 1)

/-- `list_index(layout)`: route by `max(size, align)` to the first class at
least that large. -/
def list_index (lsize lalign : Nat) : Option Nat :=
  position (fun bs => decide (max lsize lalign ≤ bs)) BLOCK_SIZES

/-- The `FixedSizeBlockAllocator` state: one free list of block addresses per
class, plus the fallback free-list allocator. -/
structure FixedSizeBlockAllocator where
  list_heads : List (List Nat)
  fallback_allocator : List Region
deriving DecidableEq

/-- Result of a fixed-size-block `alloc`. -/
inductive FsbResult
  | ptr (addr : Nat) (st : FixedSizeBlockAllocator)
  | null
  | panic
deriving DecidableEq

/-- `GlobalAlloc::alloc` for `Locked<FixedSizeBlockAllocator>`: route by
`list_index`; on a class hit pop the head node of that class's list; on an
empty class list carve one block of the class's size and alignment from the
fallback allocator; oversize requests go to the fallback directly. -/
def fsb_alloc (st : FixedSizeBlockAllocator) (lsize lalign : Nat) : FsbResult :=
  match list_index lsize lalign with
  | some index =>
    match st.list_heads.getD index [] with
    | node :: rest2 =>
      .ptr node ⟨st.list_heads.set index rest2, st.fallback_allocator⟩
    | [] =>
      let block_size := BLOCK_SIZES.getD index 0
      match ll_alloc st.fallback_allocator block_size block_size with
      | .ptr p l2 => .ptr p ⟨st.list_heads, l2⟩
      | .null => .null
      | .panic => .panic
  | none =>
    match ll_alloc st.fallback_allocator lsize lalign with
    | .ptr p l2 => .ptr p ⟨st.list_heads, l2⟩
    | .null => .null
    | .panic => .panic

/-- `GlobalAlloc::dealloc` for `Locked<FixedSizeBlockAllocator>`: on a class
hit, assert the block can hold a node (its node type has size and alignment
8) and push the freed block onto that class's list; otherwise return the span
to the fallback allocator.  `none` models an assertion or fallback panic. -/
def fsb_dealloc (st : FixedSizeBlockAllocator) (ptr lsize lalign : Nat) :
    Option FixedSizeBlockAllocator :=
  match list_index lsize lalign with
  | some index =>
    if 8 ≤ BLOCK_SIZES.getD index 0 ∧ 8 ≤ BLOCK_SIZES.getD index 0 then
      some ⟨st.list_heads.set index (ptr :: st.list_heads.getD index []),
        st.fallback_allocator⟩
    else none
  | none =>
    match ll_dealloc st.fallback_allocator ptr lsize lalign with
    | some l2 => some ⟨st.list_heads, l2⟩
    | none => none

theorem getD_set_self {α : Type} :
    ∀ (l : List α) (i : Nat) (x d : α), i < l.length →
      (l.set i x).getD i d = x
  | [], i, x, d, h => absurd h (by simp)
  | a :: as, 0, x, d, h => rfl
  | a :: as, i + 1, x, d, h =>
    getD_set_self as i x d (by simpa using h)

theorem set_getD_self {α : Type} :
    ∀ (l : List α) (i : Nat) (d : α), i < l.length →
      l.set i (l.getD i d) = l
  | [], i, d, h => absurd h (by simp)
  | a :: as, 0, d, h => rfl
  | a :: as, i + 1, d, h => by
    show a :: as.set i (as.getD i d) = a :: as
    rw [set_getD_self as i d (by simpa using h)]

/-- C8: the routing key is `max(size, align)`; the request routes to the
first (hence smallest) class at least the key, with oversize keys delegated
to the fallback; size 10 / align 4 routes to the 16-byte class; and after
freeing a block of that class, repeating the same request pops exactly that
freed block and restores the previous state, so the fallback allocator is
untouched. -/
theorem class_routing_reuse (ls la : Nat)
    (st : FixedSizeBlockAllocator) (ptr : Nat)
    (hlen : st.list_heads.length = 9)
    {st2 : FixedSizeBlockAllocator} (hd : fsb_dealloc st ptr 10 4 = some st2) :
    (list_index 10 4 = some 1 ∧ BLOCK_SIZES.getD 1 0 = 16) ∧
    (2048 < max ls la → list_index ls la = none) ∧
    (max ls la ≤ 2048 → ∃ i, list_index ls la = some i ∧
      max ls la ≤ BLOCK_SIZES.getD i 0 ∧
      ∀ j, j < i → BLOCK_SIZES.getD j 0 < max ls la) ∧
    fsb_alloc st2 10 4 = .ptr ptr st := by
  have hidx : list_index 10 4 = some 1 := by decide
  refine ⟨⟨hidx, by decide⟩, ?_, ?_, ?_⟩
  · intro hbig
    have hfalse : ∀ m : Nat, m ≤ 2048 → (decide (max ls la ≤ m)) = false := by
      intro m hm
      simp only [decide_eq_false_iff_not]
      omega
    simp only [list_index, BLOCK_SIZES, position, hfalse 8 (by norm_num),
      hfalse 16 (by norm_num), hfalse 32 (by norm_num), hfalse 64 (by norm_num),
      hfalse 128 (by norm_num), hfalse 256 (by norm_num),
      hfalse 512 (by norm_num), hfalse 1024 (by norm_num),
      hfalse 2048 (by norm_num)]
    simp
  · intro hsmall
    have hstep : ∀ m : Nat, max ls la ≤ m → (decide (max ls la ≤ m)) = true := by
      intro m hm
      simpa using hm
    have hno : ∀ m : Nat, m < max ls la → (decide (max ls la ≤ m)) = false := by
      intro m hm
      simp only [decide_eq_false_iff_not]
      omega
    by_cases h0 : max ls la ≤ 8
    · refine ⟨0, ?_, by simpa [BLOCK_SIZES] using h0, by omega⟩
      simp only [list_index, BLOCK_SIZES, position, hstep 8 h0]
      simp
    · by_cases h1 : max ls la ≤ 16
      · refine ⟨1, ?_, by simpa [BLOCK_SIZES] using h1, ?_⟩
        · simp only [list_index, BLOCK_SIZES, position, hno 8 (by omega), hstep 16 h1]
          simp
        · intro j hj
          interval_cases j
          simp [BLOCK_SIZES]
          omega
      · by_cases h2 : max ls la ≤ 32
        · refine ⟨2, ?_, by simpa [BLOCK_SIZES] using h2, ?_⟩
          · simp only [list_index, BLOCK_SIZES, position, hno 8 (by omega),
              hno 16 (by omega), hstep 32 h2]
            simp
          · intro j hj
            interval_cases j <;> simp [BLOCK_SIZES] <;> omega
        · by_cases h3 : max ls la ≤ 64
          · refine ⟨3, ?_, by simpa [BLOCK_SIZES] using h3, ?_⟩
            · simp only [list_index, BLOCK_SIZES, position, hno 8 (by omega),
                hno 16 (by omega), hno 32 (by omega), hstep 64 h3]
              simp
            · intro j hj
              interval_cases j <;> simp [BLOCK_SIZES] <;> omega
          · by_cases h4 : max ls la ≤ 128
            · refine ⟨4, ?_, by simpa [BLOCK_SIZES] using h4, ?_⟩
              · simp only [list_index, BLOCK_SIZES, position, hno 8 (by omega),
                  hno 16 (by omega), hno 32 (by omega), hno 64 (by omega),
                  hstep 128 h4]
                simp
              · intro j hj
                interval_cases j <;> simp [BLOCK_SIZES] <;> omega
            · by_cases h5 : max ls la ≤ 256
              · refine ⟨5, ?_, by simpa [BLOCK_SIZES] using h5, ?_⟩
                · simp only [list_index, BLOCK_SIZES, position, hno 8 (by omega),
                    hno 16 (by omega), hno 32 (by omega), hno 64 (by omega),
                    hno 128 (by omega), hstep 256 h5]
                  simp
                · intro j hj
                  interval_cases j <;> simp [BLOCK_SIZES] <;> omega
              · by_cases h6 : max ls la ≤ 512
                · refine ⟨6, ?_, by simpa [BLOCK_SIZES] using h6, ?_⟩
                  · simp only [list_index, BLOCK_SIZES, position, hno 8 (by omega),
                      hno 16 (by omega), hno 32 (by omega), hno 64 (by omega),
                      hno 128 (by omega), hno 256 (by omega), hstep 512 h6]
                    simp
                  · intro j hj
                    interval_cases j <;> simp [BLOCK_SIZES] <;> omega
                · by_cases h7 : max ls la ≤ 1024
                  · refine ⟨7, ?_, by simpa [BLOCK_SIZES] using h7, ?_⟩
                    · simp only [list_index, BLOCK_SIZES, position, hno 8 (by omega),
                        hno 16 (by omega), hno 32 (by omega), hno 64 (by omega),
                        hno 128 (by omega), hno 256 (by omega),
                        hno 512 (by omega), hstep 1024 h7]
                      simp
                    · intro j hj
                      interval_cases j <;> simp [BLOCK_SIZES] <;> omega
                  · refine ⟨8, ?_, by simpa [BLOCK_SIZES] using hsmall, ?_⟩
                    · simp only [list_index, BLOCK_SIZES, position, hno 8 (by omega),
                        hno 16 (by omega), hno 32 (by omega), hno 64 (by omega),
                        hno 128 (by omega), hno 256 (by omega),
                        hno 512 (by omega), hno 1024 (by omega),
                        hstep 2048 hsmall]
                      simp
                    · intro j hj
                      interval_cases j <;> simp [BLOCK_SIZES] <;> omega
  · unfold fsb_dealloc at hd
    rw [hidx] at hd
    dsimp only at hd
    have hcond : 8 ≤ BLOCK_SIZES.getD 1 0 ∧ 8 ≤ BLOCK_SIZES.getD 1 0 := by decide
    rw [if_pos hcond] at hd
    cases hd
    unfold fsb_alloc
    rw [hidx]
    dsimp only
    rw [getD_set_self st.list_heads 1 _ [] (by omega)]
    dsimp only
    rw [List.set_set, set_getD_self st.list_heads 1 [] (by omega)]

/-- Closed instance: routing and reuse at a concrete allocator state. -/
theorem class_routing_reuse_witness :
    ((list_index 10 4 = some 1 ∧ BLOCK_SIZES.getD 1 0 = 16) ∧
      (2048 < max 10 4 → list_index 10 4 = none) ∧
      (max 10 4 ≤ 2048 → ∃ i, list_index 10 4 = some i ∧
        max 10 4 ≤ BLOCK_SIZES.getD i 0 ∧
        ∀ j, j < i → BLOCK_SIZES.getD j 0 < max 10 4) ∧
      fsb_alloc ⟨[[], [300], [], [], [], [], [], [], []], [⟨4096, 4096⟩]⟩ 10 4 =
        .ptr 300 ⟨[[], [], [], [], [], [], [], [], []], [⟨4096, 4096⟩]⟩) :=
  class_routing_reuse 10 4 ⟨[[], [], [], [], [], [], [], [], []], [⟨4096, 4096⟩]⟩
    300 (by decide) (by decide)

/-! Claim C9: lock coverage of the synchronized facade. -/

/-- The backend steps a facade call performs while holding the lock. -/
inductive AllocatorStep
  | sizeAlignStep
  | findRegionStep
  | addExcessStep
  | addFreeRegionStep
  | mergeRegionStep
  | bumpAllocStep
  | bumpDeallocStep
  | classStep
  | fsbDeallocStep
deriving DecidableEq

/-- The facade entry points implementing `GlobalAlloc`. -/
inductive FacadeOp
  | llAllocOp
  | llDeallocOp
  | bumpAllocOp
  | bumpDeallocOp
  | fsbAllocOp
  | fsbDeallocOp
deriving DecidableEq

/-- The critical sections of each facade call, transcribed from the
`GlobalAlloc` implementations: each `self.lock()` expression creates one
guard, held for the steps in one section and dropped before the next
section begins.  The free-list `dealloc` calls `self.lock()` twice — once
for `add_free_region` and again for `merge_region`. -/
def lockSections : FacadeOp → List (List AllocatorStep)
  | .llAllocOp => [[.findRegionStep, .addExcessStep]]
  | .llDeallocOp => [[.addFreeRegionStep], [.mergeRegionStep]]
  | .bumpAllocOp => [[.bumpAllocStep]]
  | .bumpDeallocOp => [[.bumpDeallocStep]]
  | .fsbAllocOp => [[.classStep]]
  | .fsbDeallocOp => [[.fsbDeallocStep]]

/-- C9 counterexample: not every facade call holds the lock for its full
duration — the free-list `deallocate` consists of two separate critical
sections, so the lock is released between `add_free_region` and
`merge_region`. -/
theorem lock_full_duration_cex :
    ¬ (∀ op : FacadeOp, (lockSections op).length = 1) := by
  intro h
  have h2 := h .llDeallocOp
  simp [lockSections] at h2

/-- C9 (amended): every backend step runs while holding the lock, and every
facade call except the free-list `deallocate` holds it for the whole call;
the free-list `deallocate` releases and re-acquires the lock between its
`add_free_region` and `merge_region` sections (whose sequential composition
is exactly `ll_dealloc`, for every input), and that gap is observable:
another thread's `allocate` scheduled between the two sections sees the
still-unmerged free list and can fail where it would succeed after the
merge. -/
theorem lock_sections_amended :
    lockSections .llDeallocOp = [[.addFreeRegionStep], [.mergeRegionStep]] ∧
    (∀ op : FacadeOp, op ≠ .llDeallocOp → (lockSections op).length = 1) ∧
    (∀ (l : List Region) (ptr ls la : Nat),
      ll_dealloc l ptr ls la =
        Option.map merge_region (add_free_region l ptr (size_align ls la).1)) ∧
    ll_dealloc [⟨4160, 4032⟩] 4096 64 8 =
      some (merge_region [⟨4096, 64⟩, ⟨4160, 4032⟩]) ∧
    add_free_region [⟨4160, 4032⟩] 4096 (size_align 64 8).1 =
      some [⟨4096, 64⟩, ⟨4160, 4032⟩] ∧
    ll_alloc [⟨4096, 64⟩, ⟨4160, 4032⟩] 4096 8 = .null ∧
    merge_region [⟨4096, 64⟩, ⟨4160, 4032⟩] = [⟨4096, 4096⟩] ∧
    ll_alloc [⟨4096, 4096⟩] 4096 8 = .ptr 4096 [] := by
  refine ⟨rfl, ?_, ?_, by decide, by decide, by decide, by decide, by decide⟩
  · intro op hop
    cases op <;> first | rfl | exact absurd rfl hop
  · intro l ptr ls la
    unfold ll_dealloc
    cases h : add_free_region l ptr (size_align ls la).1 <;> rfl

end RustCore
